import Mathlib

/-!
Verification of the content-summarization and relevance-ranking pipeline of the
miro-mcp repository.  Strings are modelled as `List Char` (the repository's
code operates on JavaScript strings; all string data exercised by the claims is
ASCII).  Each definition is a shallow embedding of the TypeScript function of
the same name; file and line references are given in the doc comments.
-/

namespace MiroMcp

/-! ### JavaScript string primitives -/
/-- Character class of the JavaScript regex `\s` (also the set trimmed by
`String.prototype.trim`): ASCII whitespace, NBSP, and the Unicode space
separators and line terminators. -/
def isJsWs (c : Char) : Bool :=
  c = ' ' || c = '\t' || c = '\n' || c.val = 11 || c.val = 12 || c = '\r' ||
  c.val = 160 || c.val = 0x1680 || (0x2000 ≤ c.val && c.val ≤ 0x200A) ||
  c.val = 0x2028 || c.val = 0x2029 || c.val = 0x202F || c.val = 0x205F ||
  c.val = 0x3000 || c.val = 0xFEFF

/-- Character class of the JavaScript regex `\w`: ASCII letters, digits and
underscore. -/
def wordCharB (c : Char) : Bool :=
  ('a' ≤ c && c ≤ 'z') || ('A' ≤ c && c ≤ 'Z') || ('0' ≤ c && c ≤ '9') || c = '_'

/-- Character class of the JavaScript regex `\d`. -/
def isDigitB (c : Char) : Bool :=
  '0' ≤ c && c ≤ '9'

/-- JavaScript `String.prototype.toLowerCase`, restricted to the ASCII range
(all text matched by the repository is ASCII).  `Char.toLower` lowers exactly
the ASCII uppercase letters. -/
def toLowerL (s : List Char) : List Char :=
  s.map Char.toLower

/-- JavaScript `String.prototype.trim`: remove leading and trailing
whitespace. -/
def jsTrim (s : List Char) : List Char :=
  ((s.dropWhile isJsWs).reverse.dropWhile isJsWs).reverse

/-- Worker for `collapseWs`; `prevWs` records whether we are inside a
whitespace run whose single replacement space has already been emitted. -/
def collapseAux : Bool → List Char → List Char
  | _, [] => []
  | prevWs, c :: rest =>
    if isJsWs c then
      if prevWs then collapseAux true rest else ' ' :: collapseAux true rest
    else c :: collapseAux false rest

/-- JavaScript `replace(/\s+/g, ' ')`: every maximal whitespace run becomes a
single space. -/
def collapseWs (s : List Char) : List Char :=
  collapseAux false s

/-- Worker for `removeTags`.  When `skipping` is set we are inside a matched
`<[^>]*>` region and drop characters up to and including the next `>`. -/
def rtGo : Bool → List Char → List Char
  | _, [] => []
  | true, c :: rest => if c = '>' then rtGo false rest else rtGo true rest
  | false, c :: rest =>
    if c = '<' && rest.contains '>' then rtGo true rest
    else c :: rtGo false rest

/-- JavaScript `replace(/<[^>]*>/g, '')` (miro-client.ts:485, miro-server.ts:796):
a `<` opens a match exactly when some `>` occurs later (the greedy `[^>]*`
stops before the first subsequent `>`, which the final `>` then consumes); a
`<` with no later `>` is kept verbatim. -/
def removeTags (s : List Char) : List Char :=
  rtGo false s

/-- Strings in which no `<` is followed by a later `>` — exactly the strings
on which the tag-removal regex finds no match.  The output of `removeTags`
always has this shape, which is what makes a second tag-removal pass the
identity. -/
def tagFreeB : List Char → Bool
  | [] => true
  | c :: rest => (if c = '<' then !(rest.contains '>') else true) && tagFreeB rest

/-- Worker for `replaceAll`: JavaScript global replacement of a literal
pattern by `rep`, scanning left to right without rescanning replacement text.
`skip` counts characters still to drop from the tail of a match already
emitted (structural recursion on the subject string). -/
def raGo (pat rep : List Char) (skip : Nat) : List Char → List Char
  | [] => []
  | c :: rest =>
    match skip with
    | n + 1 => raGo pat rep n rest
    | 0 =>
      if pat.isPrefixOf (c :: rest) then rep ++ raGo pat rep (pat.length - 1) rest
      else c :: raGo pat rep 0 rest

/-- JavaScript `String.prototype.replace` with a global literal pattern
(the entity-decoding steps of `cleanHtmlContent`); the pattern is nonempty for
every pattern the repository uses. -/
def replaceAll (pat rep : List Char) (s : List Char) : List Char :=
  match pat with
  | [] => s
  | _ :: _ => raGo pat rep 0 s

/-- JavaScript `String.prototype.includes`: substring test. -/
def containsSub (s pat : List Char) : Bool :=
  match s with
  | [] => pat.isEmpty
  | _ :: rest => pat.isPrefixOf s || containsSub rest pat

/-- Worker for `jsSplitWs`.  `some cur` means we are building the piece `cur`
(reversed); `none` means we are inside a separator (whitespace run), in which
case reaching the end of the string yields the empty trailing piece that
JavaScript's `split` produces. -/
def swGo : Option (List Char) → List Char → List (List Char)
  | some cur, [] => [cur.reverse]
  | none, [] => [[]]
  | some cur, c :: rest =>
    if isJsWs c then cur.reverse :: swGo none rest else swGo (some (c :: cur)) rest
  | none, c :: rest =>
    if isJsWs c then swGo none rest else swGo (some [c]) rest

/-- JavaScript `split(/\s+/)`: split at maximal whitespace runs, keeping the
(possibly empty) pieces before the first and after the last separator, e.g.
`" a "` splits into `["", "a", ""]` and `""` into `[""]`. -/
def jsSplitWs (s : List Char) : List (List Char) :=
  swGo (some []) s

/-- Worker for `dedupFirst`, carrying the set of values already emitted. -/
def dfGo {α : Type} [DecidableEq α] (seen : List α) : List α → List α
  | [] => []
  | x :: rest => if x ∈ seen then dfGo seen rest else x :: dfGo (x :: seen) rest

/-- JavaScript `[...new Set(l)]`: deduplicate keeping the first occurrence of
each value, in insertion order. -/
def dedupFirst {α : Type} [DecidableEq α] (l : List α) : List α :=
  dfGo [] l

/-- One insertion step of `stableSort`: the new element `x` goes after every
element it does not strictly precede. -/
def insertStable {α : Type} (le : α → α → Bool) (x : α) : List α → List α
  | [] => [x]
  | y :: ys => if le y x then y :: insertStable le x ys else x :: y :: ys

/-- JavaScript `Array.prototype.sort` with a comparator inducing the total
preorder `le` (`le a b` meaning the comparator does not require `b` before
`a`).  ECMAScript requires the sort to be stable, and a stable sort by a total
preorder has a unique result, here realized by left-to-right insertion. -/
def stableSort {α : Type} (le : α → α → Bool) (l : List α) : List α :=
  l.foldl (fun acc x => insertStable le x acc) []

/-- JavaScript `Array.prototype.slice(0, n)` for an integer `n`: a negative
`n` counts from the end of the array. -/
def jsSlice0 {α : Type} (l : List α) (n : Int) : List α :=
  if n < 0 then l.take (l.length - min (-n).toNat l.length)
  else l.take (min n.toNat l.length)

/-! ### Levenshtein edit distance

`calculateSimilarity` (miro-client.ts:633-658 and part_002:1004-1020) fills the
standard Levenshtein dynamic-programming matrix with unit insertion, deletion
and substitution costs: `matrix[i][j] = min(matrix[i-1][j]+1, matrix[i][j-1]+1,
matrix[i-1][j-1] + (a[i-1]===b[j-1] ? 0 : 1))` with border `matrix[i][0]=i`,
`matrix[0][j]=j`.  The function below is that same recurrence in recursive
form (the matrix is its memoization table). -/
/-- Inner worker computing `levenshtein (x :: xs) ys` given
`f = levenshtein xs`. -/
def levConsGo (f : List Char → Nat) (x : Char) : List Char → Nat
  | [] => f [] + 1
  | y :: ys =>
    min (f (y :: ys) + 1)
      (min (levConsGo f x ys + 1) (f ys + (if x = y then 0 else 1)))

/-- Unit-cost Levenshtein edit distance, the recurrence computed by the
`calculateSimilarity` matrix. -/
def levenshtein : List Char → List Char → Nat
  | [], ys => ys.length
  | x :: xs, ys => levConsGo (levenshtein xs) x ys

/-! ### Similarity scorer -/
/-- `calculateSimilarity` (miro-client.ts:633-658): early return 1 for equal
strings, 0 when either string is empty, otherwise
`1 - distance / max(len a, len b)` (the matrix fill is `levenshtein`).
Numbers are modelled as exact rationals. -/
def calculateSimilarity (a b : List Char) : ℚ :=
  if a = b then 1
  else if a.length = 0 ∨ b.length = 0 then 0
  else 1 - (levenshtein a b : ℚ) / ((max a.length b.length : ℕ) : ℚ)

/-- `calculateSimilarity` (part_002:1004-1020 and part_001:2071-2090): the
same matrix without the early returns: `maxLen === 0 ? 1 : 1 - dist/maxLen`. -/
def calculateSimilarityGong (a b : List Char) : ℚ :=
  if max a.length b.length = 0 then 1
  else 1 - (levenshtein a b : ℚ) / ((max a.length b.length : ℕ) : ℚ)

/-- Executable form of the comparison `calculateSimilarity(a,b) > 0.8`
performed by `removeSimilarContent` (miro-client.ts:566-567), with the
division cleared: in the main branch `1 - d/m > 4/5 ↔ 5*d < m`.
`simGt08_iff` proves the equivalence. -/
def simGt08 (a b : List Char) : Bool :=
  if a = b then true
  else if a.length = 0 ∨ b.length = 0 then false
  else decide (5 * levenshtein a b < max a.length b.length)

/-- Executable form of `calculateSimilarity(titleWord, searchWord) > 0.8` on
the Gong variant (part_002:1040): `1 - d/m > 4/5 ↔ 5*d < m`, and `1 > 4/5`
when both strings are empty. -/
def gongSimGt08 (a b : List Char) : Bool :=
  if max a.length b.length = 0 then true
  else decide (5 * levenshtein a b < max a.length b.length)

/-- Executable form of `calculateSimilarity(titleWord, searchWord) > 0.7`
(part_002:1050-1051) on the Gong variant: `1 - d/m > 7/10 ↔ 10*d < 3*m`. -/
def gongSimGt07 (a b : List Char) : Bool :=
  if max a.length b.length = 0 then true
  else decide (10 * levenshtein a b < 3 * max a.length b.length)

/-! ### Content summarizer (miro-client.ts:502-626) -/
/-- Regex `^https?:\/\//` of the filter stage (miro-client.ts:520). -/
def startsHttp (t : List Char) : Bool :=
  "http://".toList.isPrefixOf t || "https://".toList.isPrefixOf t

/-- Regex `^[^\w\s]*$` (miro-client.ts:521): only punctuation. -/
def onlyPunct (t : List Char) : Bool :=
  t.all (fun c => !wordCharB c && !isJsWs c)

/-- Line terminators, the characters the regex `.` does not match. -/
def isLineTerm (c : Char) : Bool :=
  c = '\n' || c = '\r' || c.val = 0x2028 || c.val = 0x2029

/-- Regex `^(.)\1{3,}$` (miro-client.ts:522): a single character repeated at
least four times (the leading `.` cannot be a line terminator). -/
def repeatedCharB (t : List Char) : Bool :=
  match t with
  | [] => false
  | c :: rest => !isLineTerm c && decide (3 ≤ rest.length) && rest.all (fun d => d = c)

/-- Filter stage of `summarizeContent` (miro-client.ts:509-525). -/
def isMeaningful (item : List Char) : Bool :=
  if item.isEmpty then false
  else
    let trimmed := jsTrim item
    if trimmed.length < 3 then false
    else if 300 < trimmed.length then false
    else if startsHttp trimmed then false
    else if onlyPunct trimmed then false
    else if repeatedCharB trimmed then false
    else true

/-- The case-normalization used by the dedup stage:
`item.toLowerCase().trim()` (miro-client.ts:556). -/
def normContent (x : List Char) : List Char :=
  jsTrim (toLowerL x)

/-- The `unique.some(...)` duplicate test of `removeSimilarContent`
(miro-client.ts:559-568): exact match of the normalized forms, or
similarity above 0.8. -/
def rscIsDup (unique : List (List Char)) (normalized : List Char) : Bool :=
  unique.any (fun existing =>
    let existingNormalized := normContent existing
    decide (existingNormalized = normalized) || simGt08 existingNormalized normalized)

/-- `removeSimilarContent` (miro-client.ts:552-576): greedy in-order dedup. -/
def removeSimilarContent (content : List (List Char)) : List (List Char) :=
  content.foldl
    (fun unique item =>
      if rscIsDup unique (normContent item) then unique else unique ++ [item])
    []

/-- The fixed business/project term list (miro-client.ts:608-612). -/
def businessTerms : List (List Char) :=
  ["project", "task", "goal", "team", "strategy", "plan", "idea", "issue",
   "solution", "user", "customer", "feature", "requirement", "sprint",
   "meeting", "action", "decision", "risk", "opportunity"].map String.toList

/-- The noise words of the regex `^(untitled|new|item|text|note|card)\s*\d*$`
(miro-client.ts:622). -/
def noiseWords : List (List Char) :=
  ["untitled", "new", "item", "text", "note", "card"].map String.toList

/-- Case-insensitive test of `^(untitled|new|item|text|note|card)\s*\d*$`. -/
def noiseB (content : List Char) : Bool :=
  let lower := toLowerL content
  noiseWords.any (fun w =>
    w.isPrefixOf lower && ((lower.drop w.length).dropWhile isJsWs).all isDigitB)

/-- `getContentRelevanceScore` (miro-client.ts:594-626). -/
def getContentRelevanceScore (content : List Char) : Int :=
  let words := jsSplitWs content
  let length := content.length
  let lenScore : Int :=
    (if 10 ≤ length ∧ length ≤ 100 then 3 else 0) +
    (if 100 < length ∧ length ≤ 200 then 1 else 0)
  let wordScore : Int :=
    (if 1 < words.length then 2 else 0) + (if 4 ≤ words.length then 1 else 0)
  let termScore : Int :=
    2 * ((businessTerms.filter (fun t => containsSub (toLowerL content) t)).length : Int)
  let questionScore : Int := if content.contains '?' then 1 else 0
  let noisePenalty : Int := if noiseB content then -5 else 0
  let digitPenalty : Int :=
    if !content.isEmpty && content.all isDigitB then -3 else 0
  lenScore + wordScore + termScore + questionScore + noisePenalty + digitPenalty

/-- `prioritizeContent` (miro-client.ts:581-589): stable sort by descending
relevance score. -/
def prioritizeContent (content : List (List Char)) : List (List Char) :=
  (stableSort (fun a b => decide (b.2 ≤ a.2))
    (content.map (fun item => (item, getContentRelevanceScore item)))).map
    (fun p => p.1)

/-- Result record of `summarizeContent`. -/
structure SummarizeResult where
  summary : List (List Char)
  total : Nat
  summarized : Nat
  skipped : Int
deriving DecidableEq

/-- `summarizeContent` (miro-client.ts:502-547); `maxItems` defaults to 20 at
the call sites.  The final truncation is `prioritized.slice(0, maxItems)`. -/
def summarizeContent (content : List (List Char)) (maxItems : Int) : SummarizeResult :=
  let meaningfulContent := content.filter isMeaningful
  let uniqueContent := removeSimilarContent meaningfulContent
  let prioritized := prioritizeContent uniqueContent
  let summary := jsSlice0 prioritized maxItems
  { summary := summary
    total := content.length
    summarized := summary.length
    skipped := (content.length : Int) - summary.length }

/-! ### Text normalizer (miro-client.ts:480-493 and miro-server.ts:791-805) -/
/-- The entity-decoding chain shared by both `cleanHtmlContent` variants, in
source order: `&nbsp;`→space, `&amp;`→`&`, `&lt;`→`<`, `&gt;`→`>`,
`&quot;`→`"`, `&#39;`→apostrophe. -/
def decodeEntities (s : List Char) : List Char :=
  replaceAll "&#39;".toList [Char.ofNat 39]
    (replaceAll "&quot;".toList "\"".toList
      (replaceAll "&gt;".toList ">".toList
        (replaceAll "&lt;".toList "<".toList
          (replaceAll "&amp;".toList "&".toList
            (replaceAll "&nbsp;".toList " ".toList s)))))

/-- `cleanHtmlContent` of miro-client.ts:480-493: remove tags, decode
entities, trim.  This variant performs no whitespace collapsing. -/
def clientCleanHtmlContent (s : List Char) : List Char :=
  if s.isEmpty then [] else jsTrim (decodeEntities (removeTags s))

/-- `cleanHtmlContent` of miro-server.ts:791-805: remove tags, decode
entities, collapse whitespace runs (`replace(/\s+/g, ' ')`), trim. -/
def serverCleanHtmlContent (s : List Char) : List Char :=
  if s.isEmpty then [] else jsTrim (collapseWs (decodeEntities (removeTags s)))

/-- Normalizer contract as worded by the spec (§4.1), defined for the
refinement comparison of claim C5: all markup tags removed, named entities
decoded, internal whitespace runs collapsed to a single space, leading and
trailing whitespace trimmed; empty input yields the empty string. -/
def specNormalize (s : List Char) : List Char :=
  jsTrim (collapseWs (decodeEntities (removeTags s)))

/-- The spec contract of §4.1 with the whitespace-collapsing step omitted,
the behaviour actually implemented by the client variant. -/
def specNormalizeNoCollapse (s : List Char) : List Char :=
  jsTrim (decodeEntities (removeTags s))

/-- Well-collapsed strings: every whitespace character is a plain space and no
two are adjacent (`prev` records whether the previous character was
whitespace).  This is the invariant `collapseWs` establishes. -/
def wcB : Bool → List Char → Bool
  | _, [] => true
  | prevWs, c :: rest =>
    if isJsWs c then decide (c = ' ') && !prevWs && wcB true rest
    else wcB false rest

/-! ### Category matcher

Three analyzer variants exist in the source:
* `analyzeContentForKeywords` (miro-client.ts:1447-1537): weighted
  replication, context via the display-name table;
* `analyzeContent` (miro-server.ts:914-946): count-based sort, context via
  the display-name table (`generateContextDescription`, miro-server.ts:976-994,
  identical to miro-client.ts:1539-1556);
* `analyzeContentForTemplates` (miro-client.ts:285-328): simplified keyword
  lists, count-based sort, context built from the raw category keys.

The keyword lists of the first two variants are declared identically in both
files (miro-client.ts:1457-1511 and miro-server.ts:11-128), so they are
defined once below. -/
def workshopsKeywords : List String :=
  ["workshop", "facilitation", "meeting", "collaboration", "team building",
   "icebreaker", "session", "attendees", "participants", "discussion",
   "facilitated", "breakout", "group exercise", "team activity"]

def brainstormingKeywords : List String :=
  ["ideas", "creativity", "innovation", "brainstorm", "ideation", "concepts",
   "mind map", "creative thinking", "generate ideas", "explore options",
   "think outside", "creative session", "idea generation"]

def researchKeywords : List String :=
  ["research", "user research", "market research", "customer insights",
   "user experience", "ux", "design research", "user testing",
   "customer journey", "persona", "user feedback"]

def strategicPlanningKeywords : List String :=
  ["strategy", "planning", "roadmap", "business model", "goals",
   "objectives", "vision", "mission", "strategy planning",
   "business planning", "market analysis"]

def agileKeywords : List String :=
  ["sprint", "scrum", "agile", "retrospective", "standup", "backlog",
   "user stories", "kanban", "velocity", "story points", "sprint planning",
   "daily standup", "sprint review", "burndown", "epic", "feature"]

def mappingKeywords : List String :=
  ["mapping", "diagram", "flowchart", "process", "workflow",
   "swimlane", "stakeholder", "uml", "system", "architecture"]

/-- A category of the client's weighted taxonomy (miro-client.ts:1457-1511).
The float weight `w` is represented by the numerator `wNum` of `w = wNum/10`
(0.9, 1.0 and 1.2 are the only weights that occur). -/
structure WeightedCategory where
  key : String
  keywords : List String
  wNum : Nat
deriving DecidableEq

/-- The client's weighted taxonomy, in declaration order
(miro-client.ts:1457-1511): workshops 0.9, brainstorming 1.0, research 1.0,
strategic_planning 1.0, agile 1.2, mapping 1.0. -/
def clientTemplateCategories : List WeightedCategory :=
  [⟨"workshops", workshopsKeywords, 9⟩,
   ⟨"brainstorming", brainstormingKeywords, 10⟩,
   ⟨"research", researchKeywords, 10⟩,
   ⟨"strategic_planning", strategicPlanningKeywords, 10⟩,
   ⟨"agile", agileKeywords, 12⟩,
   ⟨"mapping", mappingKeywords, 10⟩]

/-- The server's `TEMPLATE_CATEGORIES` taxonomy keys and keyword lists, in
declaration order (miro-server.ts:11-128). -/
def serverTemplateCategories : List (String × List String) :=
  [("workshops", workshopsKeywords),
   ("brainstorming", brainstormingKeywords),
   ("research", researchKeywords),
   ("strategic_planning", strategicPlanningKeywords),
   ("agile", agileKeywords),
   ("mapping", mappingKeywords)]

/-- The simplified taxonomy of `analyzeContentForTemplates`
(miro-client.ts:295-302). -/
def simpleTemplateCategories : List (String × List String) :=
  [("workshops", ["workshop", "facilitation", "meeting", "collaboration",
      "team building", "icebreaker", "session"]),
   ("brainstorming", ["ideas", "creativity", "innovation", "brainstorm",
      "ideation", "concepts", "mind map"]),
   ("research", ["research", "user research", "customer insights",
      "user experience", "ux", "persona"]),
   ("strategic_planning", ["strategy", "planning", "roadmap", "business model",
      "goals", "objectives", "vision"]),
   ("agile", ["sprint", "scrum", "agile", "retrospective", "standup",
      "backlog", "user stories", "kanban"]),
   ("mapping", ["mapping", "diagram", "flowchart", "process", "workflow",
      "swimlane", "stakeholder"])]

/-- `content.join(" ")` of the analyzers. -/
def joinSpace (content : List String) : List Char :=
  List.intercalate [' '] (content.map String.toList)

/-- The display-name table `contextMap` of `generateContextDescription`,
declared identically at miro-client.ts:1540-1551 and miro-server.ts:977-988. -/
def contextMap : List (String × String) :=
  [("agile", "Agile/Scrum methodology"),
   ("design", "Design and UX work"),
   ("planning", "Strategic planning"),
   ("brainstorming", "Ideation and creativity"),
   ("analysis", "Research and analysis"),
   ("workshops", "Team collaboration and workshops"),
   ("meetings", "Meeting management and follow-up"),
   ("research", "Research and user insights"),
   ("strategic_planning", "Strategic business planning"),
   ("mapping", "Process mapping and diagramming")]

/-- `generateContextDescription` (miro-server.ts:976-994, and identically
miro-client.ts:1539-1556): map the top 3 category keys through `contextMap`,
dropping keys with no entry; if nothing remains the context is the literal
fallback string. -/
def generateContextDescription (categories : List String) : String :=
  let contexts := (categories.take 3).filterMap (fun cat => contextMap.lookup cat)
  if contexts.isEmpty then "General collaborative work"
  else "Content appears to focus on: " ++ String.intercalate ", " contexts

/-- Result record shared by the three analyzers. -/
structure AnalysisResult where
  keywords : List String
  categories : List String
  context : String
deriving DecidableEq

/-- The keywords of a weighted category matching the joined lowercased text
(`allText.includes(keyword.toLowerCase())`, miro-client.ts:1515-1517). -/
def clientMatchingKeywords (content : List String) (cat : WeightedCategory) : List String :=
  cat.keywords.filter
    (fun kw => containsSub (toLowerL (joinSpace content)) (toLowerL kw.toList))

/-- The weighted replication count `Math.ceil(matchCount * weight)`
(miro-client.ts:1521) for `weight = wNum/10`: `⌈n·wNum/10⌉ = (n·wNum+9)/10`
in natural division (exact for these weights; the double rounding of the
float products involved does not change the ceiling for the counts that can
occur, at most 16 keywords per category). -/
def weightedCount (n wNum : Nat) : Nat :=
  (n * wNum + 9) / 10

/-- `analyzeContentForKeywords` (miro-client.ts:1447-1537): for each category
in declaration order, push its matched keywords; push the category key
`weightedCount` times; deduplicate both lists with `[...new Set(...)]`
(first-occurrence order). -/
def analyzeContentForKeywords (content : List String) : AnalysisResult :=
  let perCat := clientTemplateCategories.map
    (fun cat => (cat, clientMatchingKeywords content cat))
  let foundKeywords := (perCat.map (fun p => p.2)).flatten
  let matchedCategories := (perCat.map
    (fun p => if p.2.isEmpty then []
      else List.replicate (weightedCount p.2.length p.1.wNum) p.1.key)).flatten
  let uniqueCategories := dedupFirst matchedCategories
  { keywords := dedupFirst foundKeywords
    categories := uniqueCategories
    context := generateContextDescription uniqueCategories }

/-- The weighted score `Math.ceil(matchCount * weight)` of a category key for
given content under the client's weighted taxonomy (0 when the key does not
exist or nothing matches). -/
def clientWeightedScore (content : List String) (key : String) : Nat :=
  match clientTemplateCategories.find? (fun cat => decide (cat.key = key)) with
  | none => 0
  | some cat =>
    let n := (clientMatchingKeywords content cat).length
    if n = 0 then 0 else weightedCount n cat.wNum

/-- The keywords of a server category matching the joined lowercased text
(miro-server.ts:924-927). -/
def serverMatchingKeywords (content : List String) (kws : List String) : List String :=
  kws.filter (fun kw => containsSub (toLowerL (joinSpace content)) (toLowerL kw.toList))

/-- `analyzeContent` (miro-server.ts:914-946): count-based scores, entries in
declaration order, stable sort descending by count, context via
`generateContextDescription`. -/
def analyzeContent (content : List String) : AnalysisResult :=
  let entries := serverTemplateCategories.map
    (fun cat => (cat.1, serverMatchingKeywords content cat.2))
  let nonzero := entries.filter (fun e => !e.2.isEmpty)
  let foundKeywords := (nonzero.map (fun e => e.2)).flatten
  let scores := nonzero.map (fun e => (e.1, e.2.length))
  let sortedCategories := (stableSort (fun a b => decide (b.2 ≤ a.2)) scores).map
    (fun p => p.1)
  { keywords := dedupFirst foundKeywords
    categories := sortedCategories
    context := generateContextDescription sortedCategories }

/-- `analyzeContentForTemplates` (miro-client.ts:285-328): the simplified
taxonomy (keywords compared without lowercasing them), count-based stable
sort, and a context string that joins the raw top-3 category keys. -/
def analyzeContentForTemplates (content : List String) : AnalysisResult :=
  let entries := simpleTemplateCategories.map
    (fun cat => (cat.1, cat.2.filter
      (fun kw => containsSub (toLowerL (joinSpace content)) kw.toList)))
  let nonzero := entries.filter (fun e => !e.2.isEmpty)
  let foundKeywords := (nonzero.map (fun e => e.2)).flatten
  let scores := nonzero.map (fun e => (e.1, e.2.length))
  let sortedCategories := (stableSort (fun a b => decide (b.2 ≤ a.2)) scores).map
    (fun p => p.1)
  let context := if sortedCategories.isEmpty then "General collaborative work"
    else "Content appears to focus on: " ++
      String.intercalate ", " (sortedCategories.take 3)
  { keywords := dedupFirst foundKeywords
    categories := sortedCategories
    context := context }

/-! ### Gong call matcher (part_002:965-1341) -/
/-- `normalizeText` inside `flexibleMatch` (part_002:1025-1028): replace every
character that is neither a word character nor whitespace by a space, collapse
whitespace runs, trim. -/
def normalizeText (s : List Char) : List Char :=
  jsTrim (collapseWs (s.map (fun c => if !wordCharB c && !isJsWs c then ' ' else c)))

/-- `flexibleMatch` (part_002:1022-1058): normalized substring test, then
all-words-found test (substring either way or similarity above 0.8), then any
word pair with similarity above 0.7. -/
def flexibleMatch (callTitle searchTerm : String) : Bool :=
  let title := jsTrim (toLowerL callTitle.toList)
  let term := jsTrim (toLowerL searchTerm.toList)
  let normalizedTitle := normalizeText title
  let normalizedTerm := normalizeText term
  if containsSub normalizedTitle normalizedTerm then true
  else
    let titleWords := (normalizedTitle.splitOn ' ').filter (fun w => 1 < w.length)
    let termWords := (normalizedTerm.splitOn ' ').filter (fun w => 1 < w.length)
    let allWordsFound := termWords.all (fun searchWord =>
      titleWords.any (fun titleWord =>
        containsSub titleWord searchWord || containsSub searchWord titleWord ||
        gongSimGt08 titleWord searchWord))
    if allWordsFound && !termWords.isEmpty then true
    else termWords.any (fun searchWord =>
      decide (3 ≤ searchWord.length) && titleWords.any (fun titleWord =>
        decide (3 ≤ titleWord.length) && gongSimGt07 titleWord searchWord))

/-- `calculateMatchScore` (part_002:1310-1330): 90 for a lowercased substring
hit; otherwise 20 points per query token matched (substring either way, first
title hit counts once) plus `30 · matched/termCount`, rounded half-up, capped
at 85.  The rational arithmetic `round(20m + 30m/n)` is computed exactly as
`(40mn + 60m + n) / (2n)` in natural division. -/
def calculateMatchScore (title searchTerm : String) : Nat :=
  let normalizedTitle := toLowerL title.toList
  let normalizedTerm := toLowerL searchTerm.toList
  if containsSub normalizedTitle normalizedTerm then 90
  else
    let titleWords := jsSplitWs normalizedTitle
    let termWords := jsSplitWs normalizedTerm
    let matchedWords := (termWords.filter (fun termWord =>
      titleWords.any (fun titleWord =>
        containsSub titleWord termWord || containsSub termWord titleWord))).length
    min ((40 * matchedWords * termWords.length + 60 * matchedWords + termWords.length)
      / (2 * termWords.length)) 85

/-- Word-character status of position `i` of `s` (`false` beyond the ends),
for the regex `\b` assertion. -/
def wAt (s : List Char) (i : Nat) : Bool :=
  match s.drop i with
  | [] => false
  | c :: _ => wordCharB c

/-- The regex word-boundary assertion `\b` at position `i`: word-character
status changes between the previous and the current position. -/
def boundaryAt (s : List Char) (i : Nat) : Bool :=
  (if i = 0 then false else wAt s (i - 1)) != wAt s i

/-- Literal case-insensitive word-boundary matching: the lowercased query
occurs in the lowercased title at a position with a word boundary on each
side.  This is the meaning of the program's
`new RegExp("\b" + escaped customerName + "\b", 'i').test(title)`
(part_002:1188-1189) exactly for customer names containing no regex
metacharacters, such as the scenario's "Acme".  The escaping step in the
source is broken — the character class of its replace-pattern is terminated
by the first unescaped right bracket, so the replacement never fires on a
customer name — hence metacharacters in a query stay active in the compiled
pattern, and a query that is not a valid pattern makes `new RegExp` throw
before any matching.  `searchMatches` below therefore takes the compiled
regex's test as an abstract predicate; this definition is its instantiation
for metacharacter-free queries. -/
def wordRegexTest (query title : String) : Bool :=
  let t := toLowerL title.toList
  let q := toLowerL query.toList
  (List.range (t.length + 1)).any (fun i =>
    decide ((t.drop i).take q.length = q) && boundaryAt t i && boundaryAt t (i + q.length))

/-- A Gong call record as consumed by the matcher (part_002:1178-1186).
`started` is the epoch value of the ISO timestamp (only its ordering is
used, by `new Date(started).getTime()` in the sort). -/
structure GongCall where
  id : String
  title : String
  url : String
  started : Nat
  duration : Nat
  parties : List String
deriving DecidableEq

/-- One entry of the `matches` array of `searchGongCalls`. -/
structure GongMatch where
  call : GongCall
  matchType : String
  score : Nat
deriving DecidableEq

/-- The matching core of `searchGongCalls` (part_002:1188-1202): exact
matches of the word-boundary regex with score 100; only when there are none,
fuzzy matches via `flexibleMatch` scored by `calculateMatchScore`; then a
stable sort descending by score with ties broken by descending start
timestamp.  `exactTest` is the test of the `wordRegex` compiled once from
`customerName` at part_002:1188; it is passed as a parameter because the
broken escaping (see `wordRegexTest`) leaves the compiled pattern's semantics
for metacharacter-bearing queries outside this model — for metacharacter-free
queries it is `wordRegexTest customerName`. -/
def searchMatches (exactTest : String → Bool) (calls : List GongCall)
    (customerName : String) : List GongMatch :=
  let exact := (calls.filter (fun c => exactTest c.title)).map
    (fun c => { call := c, matchType := "exact", score := 100 : GongMatch })
  let matched := if exact.isEmpty then
      (calls.filter (fun c => flexibleMatch c.title customerName)).map
        (fun c => { call := c, matchType := "fuzzy",
                    score := calculateMatchScore c.title customerName : GongMatch })
    else exact
  stableSort (fun a b =>
    if a.score = b.score then decide (b.call.started ≤ a.call.started)
    else decide (b.score ≤ a.score)) matched

/-! ### Gong HTTP helper `gongGet` (part_002:875-953; identically structured
part_001:1862-2004)

The HTTP layer is abstracted by an oracle mapping the serialized query
parameters and the cursor of a page request to that page's response, already
reduced to the two facts `gongGet` extracts from a response: the page's call
records (`response.calls` / `response.records` / `response.data`) and the next
cursor (`records.cursor` / `next` / `cursor` / `nextCursor`).  The trace of
performed requests is returned alongside the result. -/
/-- One page of the upstream `/calls` endpoint as seen by `gongGet`. -/
structure GongPage where
  pageCalls : List GongCall
  nextCursor : Option String

/-- The value `{ calls: allCalls, next: null }` built by `gongGet`
(part_002:949). -/
structure GongResult where
  calls : List GongCall
  next : Option String
deriving DecidableEq

/-- The cursor-following do-while loop of `gongGet` (part_002:905-948):
always fetches at least one page, follows the cursor, and stops after
`maxPages = 50` fetches.  `budget` is `maxPages - pageCount`; the loop is
entered with `budget = 50`.  Returns the accumulated calls and the trace of
`(params, cursor)` requests performed. -/
def fetchLoop (oracle : String → Option String → GongPage) (params : String) :
    Nat → Option String → List GongCall × List (String × Option String)
  | 0, _ => ([], [])
  | budget + 1, cursor =>
    let page := oracle params cursor
    match budget, page.nextCursor with
    | 0, _ => (page.pageCalls, [(params, cursor)])
    | _ + 1, none => (page.pageCalls, [(params, cursor)])
    | b + 1, some c =>
      let rest := fetchLoop oracle params (b + 1) (some c)
      (page.pageCalls ++ rest.1, (params, cursor) :: rest.2)

/-- `Map.prototype.set` on the cache association list. -/
def cacheSet (cache : List (String × GongResult)) (k : String) (v : GongResult) :
    List (String × GongResult) :=
  if cache.any (fun p => decide (p.1 = k)) then
    cache.map (fun p => if p.1 = k then (k, v) else p)
  else cache ++ [(k, v)]

/-- `gongGet(endpoint, params)` (part_002:875-953): for `/calls`, run the full
paginated fetch, store the result in the cache under
`endpoint + ":" + JSON.stringify(params)` and return it; for every other
endpoint the function body has no branch at all — no request is made and the
returned value is `undefined` (`none`).  Result: (returned value, new cache,
trace of HTTP requests performed). -/
def gongGet (endpoint params : String) (oracle : String → Option String → GongPage)
    (cache : List (String × GongResult)) :
    Option GongResult × List (String × GongResult) × List (String × Option String) :=
  if endpoint = "/calls" then
    let fetched := fetchLoop oracle params 50 none
    let result : GongResult := { calls := fetched.1, next := none }
    (some result, cacheSet cache (endpoint ++ ":" ++ params) result, fetched.2)
  else (none, cache, [])

/-- The call record of spec scenario 3:
`matchCalls([{title:"Acme Corp - Q1 Review", ...}], "Acme")`. -/
def acmeCall : GongCall :=
  { id := "call_001"
    title := "Acme Corp - Q1 Review"
    url := "https://app.gong.io/call/call_001"
    started := 0
    duration := 3600
    parties := [] }

/-! ### Supporting lemmas -/

/-! ### Basic lemmas about the primitives -/
theorem length_insertStable {α : Type} (le : α → α → Bool) (x : α) (l : List α) :
    (insertStable le x l).length = l.length + 1 := by
  induction l with
  | nil => rfl
  | cons y ys ih =>
    simp only [insertStable]
    split
    · simp [ih]
    · simp

theorem insertStable_perm {α : Type} (le : α → α → Bool) (x : α) (l : List α) :
    List.Perm (insertStable le x l) (x :: l) := by
  induction l with
  | nil => exact List.Perm.refl _
  | cons y ys ih =>
    simp only [insertStable]
    split
    · exact (ih.cons y).trans (List.Perm.swap x y ys)
    · exact List.Perm.refl _

theorem stableSort_perm {α : Type} (le : α → α → Bool) (l : List α) :
    List.Perm (stableSort le l) l := by
  have key : ∀ (l acc : List α), List.Perm (l.foldl (fun acc x => insertStable le x acc) acc) (acc ++ l) := by
    intro l
    induction l with
    | nil => intro acc; simp
    | cons x rest ih =>
      intro acc
      have h1 : (x :: rest).foldl (fun acc x => insertStable le x acc) acc
          = rest.foldl (fun acc x => insertStable le x acc) (insertStable le x acc) := rfl
      have h2 := ih (insertStable le x acc)
      have h3 : List.Perm ((insertStable le x acc) ++ rest) ((x :: acc) ++ rest) :=
        List.Perm.append_right rest (insertStable_perm le x acc)
      have h4 : List.Perm ((x :: acc) ++ rest) (acc ++ x :: rest) := by
        simpa using (@List.perm_middle _ x acc rest).symm
      rw [h1]
      exact h2.trans (h3.trans h4)
  simpa using key l []

theorem length_stableSort {α : Type} (le : α → α → Bool) (l : List α) :
    (stableSort le l).length = l.length :=
  (stableSort_perm le l).length_eq

theorem levenshtein_nil_left (ys : List Char) : levenshtein [] ys = ys.length := rfl

theorem levenshtein_cons_cons (x y : Char) (xs ys : List Char) :
    levenshtein (x :: xs) (y :: ys) =
      min (levenshtein xs (y :: ys) + 1)
        (min (levenshtein (x :: xs) ys + 1)
          (levenshtein xs ys + (if x = y then 0 else 1))) := rfl

theorem levenshtein_nil_right (xs : List Char) : levenshtein xs [] = xs.length := by
  induction xs with
  | nil => rfl
  | cons x xs ih =>
    show levConsGo (levenshtein xs) x [] = (x :: xs).length
    simp [levConsGo, ih]

theorem levenshtein_self (xs : List Char) : levenshtein xs xs = 0 := by
  induction xs with
  | nil => rfl
  | cons x xs ih =>
    rw [levenshtein_cons_cons, ih]
    simp

theorem levenshtein_symm (xs : List Char) : ∀ ys, levenshtein xs ys = levenshtein ys xs := by
  induction xs with
  | nil => intro ys; rw [levenshtein_nil_left, levenshtein_nil_right]
  | cons x xs ihx =>
    intro ys
    induction ys with
    | nil => rw [levenshtein_nil_left, levenshtein_nil_right]
    | cons y ys ihy =>
      rw [levenshtein_cons_cons, levenshtein_cons_cons, ihx (y :: ys), ihy, ihx ys]
      have hc : (if x = y then 0 else 1) = (if y = x then 0 else 1) := by
        by_cases h : x = y
        · simp [h]
        · have h2 : ¬ y = x := fun h2 => h h2.symm
          simp [h, h2]
      rw [hc]
      omega

theorem levenshtein_le_max (xs : List Char) :
    ∀ ys, levenshtein xs ys ≤ max xs.length ys.length := by
  induction xs with
  | nil => intro ys; rw [levenshtein_nil_left]; exact le_max_right _ _
  | cons x xs ihx =>
    intro ys
    induction ys with
    | nil => rw [levenshtein_nil_right]; exact le_max_left _ _
    | cons y ys ihy =>
      rw [levenshtein_cons_cons]
      have h3 := ihx ys
      have hcost : (if x = y then 0 else 1) ≤ 1 := by split <;> omega
      simp only [List.length_cons]
      have hm : max xs.length ys.length + 1 = max (xs.length + 1) (ys.length + 1) := by omega
      omega

theorem calculateSimilarity_eq_formula (a b : List Char) :
    calculateSimilarity a b
      = 1 - (levenshtein a b : ℚ) / ((max a.length b.length : ℕ) : ℚ) := by
  unfold calculateSimilarity
  by_cases hab : a = b
  · subst hab
    rw [if_pos rfl, levenshtein_self]
    simp
  · rw [if_neg hab]
    by_cases hz : a.length = 0 ∨ b.length = 0
    · rw [if_pos hz]
      rcases hz with hz | hz
      · have ha : a = [] := List.length_eq_zero.mp hz
        subst ha
        have hb : b ≠ [] := fun h => hab h.symm
        have hbl : 0 < b.length := List.length_pos.mpr hb
        rw [levenshtein_nil_left]
        rw [show max (List.length ([] : List Char)) b.length = b.length by simp]
        rw [div_self (by exact_mod_cast hbl.ne' : (b.length : ℚ) ≠ 0)]
        norm_num
      · have hb : b = [] := List.length_eq_zero.mp hz
        subst hb
        have ha : a ≠ [] := hab
        have hal : 0 < a.length := List.length_pos.mpr ha
        rw [levenshtein_nil_right]
        rw [show max a.length (List.length ([] : List Char)) = a.length by simp]
        rw [div_self (by exact_mod_cast hal.ne' : (a.length : ℚ) ≠ 0)]
        norm_num
    · rw [if_neg hz]

theorem calculateSimilarityGong_eq (a b : List Char) :
    calculateSimilarityGong a b = calculateSimilarity a b := by
  unfold calculateSimilarityGong
  by_cases hm : max a.length b.length = 0
  · have ha : a = [] := List.length_eq_zero.mp (by omega : a.length = 0)
    have hb : b = [] := List.length_eq_zero.mp (by omega : b.length = 0)
    subst ha; subst hb
    rw [if_pos hm]
    rfl
  · rw [if_neg hm, calculateSimilarity_eq_formula]

/-- Clearing denominators: for `0 < m` and `0 < q`,
`(d : ℚ)/m < p/q ↔ d*q < p*m` over the naturals. -/
theorem div_lt_frac_iff (d m p q : ℕ) (hm : 0 < m) (hq : 0 < q) :
    ((d : ℚ) / (m : ℚ) < (p : ℚ) / (q : ℚ)) ↔ d * q < p * m := by
  rw [div_lt_div_iff₀ (by exact_mod_cast hm) (by exact_mod_cast hq)]
  constructor
  · intro h; exact_mod_cast h
  · intro h; exact_mod_cast h

theorem simGt08_iff (a b : List Char) :
    simGt08 a b = true ↔ (4 : ℚ)/5 < calculateSimilarity a b := by
  unfold simGt08 calculateSimilarity
  by_cases hab : a = b
  · rw [if_pos hab, if_pos hab]
    norm_num
  · rw [if_neg hab, if_neg hab]
    by_cases hz : a.length = 0 ∨ b.length = 0
    · rw [if_pos hz, if_pos hz]
      norm_num
    · rw [if_neg hz, if_neg hz, decide_eq_true_iff]
      have hm : 0 < max a.length b.length := by omega
      have key := div_lt_frac_iff (levenshtein a b) (max a.length b.length) 1 5 hm (by omega)
      rw [show ((1:ℕ):ℚ) = 1 from rfl, show ((5:ℕ):ℚ) = 5 from rfl] at key
      constructor
      · intro h
        have h2 : (levenshtein a b : ℚ) / ((max a.length b.length : ℕ) : ℚ) < 1/5 :=
          key.mpr (by omega)
        linarith
      · intro h
        have h2 : (levenshtein a b : ℚ) / ((max a.length b.length : ℕ) : ℚ) < 1/5 := by
          linarith
        have h3 := key.mp h2
        omega

theorem calculateSimilarity_symm (a b : List Char) :
    calculateSimilarity a b = calculateSimilarity b a := by
  rw [calculateSimilarity_eq_formula, calculateSimilarity_eq_formula,
    levenshtein_symm, Nat.max_comm]

theorem calculateSimilarity_nonneg (a b : List Char) : 0 ≤ calculateSimilarity a b := by
  unfold calculateSimilarity
  split
  · norm_num
  · split
    · exact le_refl 0
    · rename_i hab hz
      have hm : 0 < max a.length b.length := by omega
      have hd : levenshtein a b ≤ max a.length b.length := levenshtein_le_max a b
      have hdm : (levenshtein a b : ℚ) / ((max a.length b.length : ℕ) : ℚ) ≤ 1 := by
        rw [div_le_one (by exact_mod_cast hm)]
        exact_mod_cast hd
      linarith

theorem calculateSimilarity_le_one (a b : List Char) : calculateSimilarity a b ≤ 1 := by
  unfold calculateSimilarity
  split
  · exact le_refl 1
  · split
    · norm_num
    · rename_i hab hz
      have hm : 0 < max a.length b.length := by omega
      have hdm : 0 ≤ (levenshtein a b : ℚ) / ((max a.length b.length : ℕ) : ℚ) := by
        positivity
      linarith

/-! ### Lemmas for the normalizer -/
theorem rtGo_of_not_mem (s : List Char) (h : '<' ∉ s) : rtGo false s = s := by
  induction s with
  | nil => rfl
  | cons c rest ih =>
    have hc : c ≠ '<' := fun hc => h (hc ▸ List.mem_cons_self c rest)
    have hrest : '<' ∉ rest := fun hm => h (List.mem_cons_of_mem c hm)
    show rtGo false (c :: rest) = c :: rest
    unfold rtGo
    have : (c = '<' && rest.contains '>') = false := by
      simp [hc]
    rw [this]
    simp [ih hrest]

theorem removeTags_of_not_mem (s : List Char) (h : '<' ∉ s) : removeTags s = s :=
  rtGo_of_not_mem s h

theorem raGo_of_head_not_mem (p : Char) (ps rep : List Char) (s : List Char)
    (h : p ∉ s) : raGo (p :: ps) rep 0 s = s := by
  induction s with
  | nil => rfl
  | cons c rest ih =>
    have hc : p ≠ c := fun hc => h (hc ▸ List.mem_cons_self c rest)
    have hrest : p ∉ rest := fun hm => h (List.mem_cons_of_mem c hm)
    show raGo (p :: ps) rep 0 (c :: rest) = c :: rest
    unfold raGo
    have hpre : (p :: ps).isPrefixOf (c :: rest) = false := by
      simp [List.isPrefixOf, hc]
    rw [hpre]
    simp [ih hrest]

theorem replaceAll_of_head_not_mem (pat rep : List Char) (s : List Char) (p : Char)
    (hp : pat.head? = some p) (h : p ∉ s) : replaceAll pat rep s = s := by
  cases pat with
  | nil => cases hp
  | cons q ps =>
    have hq : q = p := by injection hp
    subst hq
    exact raGo_of_head_not_mem q ps rep s h

theorem decodeEntities_of_no_amp (s : List Char) (h : '&' ∉ s) :
    decodeEntities s = s := by
  unfold decodeEntities
  rw [replaceAll_of_head_not_mem ("&nbsp;".toList) _ s '&' rfl h,
    replaceAll_of_head_not_mem ("&amp;".toList) _ s '&' rfl h,
    replaceAll_of_head_not_mem ("&lt;".toList) _ s '&' rfl h,
    replaceAll_of_head_not_mem ("&gt;".toList) _ s '&' rfl h,
    replaceAll_of_head_not_mem ("&quot;".toList) _ s '&' rfl h,
    replaceAll_of_head_not_mem ("&#39;".toList) _ s '&' rfl h]

theorem jsTrim_subset (s : List Char) : ∀ c, c ∈ jsTrim s → c ∈ s := by
  intro c hc
  unfold jsTrim at hc
  rw [List.mem_reverse] at hc
  have h1 := (@List.dropWhile_suffix _ ((s.dropWhile isJsWs).reverse) isJsWs).mem hc
  rw [List.mem_reverse] at h1
  exact (@List.dropWhile_suffix _ s isJsWs).mem h1

theorem mem_collapseAux (s : List Char) :
    ∀ prev c, c ∈ collapseAux prev s → c ∈ s ∨ c = ' ' := by
  induction s with
  | nil => intro prev c hc; cases hc
  | cons d rest ih =>
    intro prev c hc
    unfold collapseAux at hc
    by_cases hd : isJsWs d
    · rw [if_pos hd] at hc
      by_cases hp : prev
      · subst hp
        rw [if_pos rfl] at hc
        rcases ih true c hc with h | h
        · exact Or.inl (List.mem_cons_of_mem d h)
        · exact Or.inr h
      · have hp2 : prev = false := by revert hp; cases prev <;> simp
        subst hp2
        simp only [Bool.false_eq_true, if_false] at hc
        rcases List.mem_cons.mp hc with h | h
        · exact Or.inr h
        · rcases ih true c h with h2 | h2
          · exact Or.inl (List.mem_cons_of_mem d h2)
          · exact Or.inr h2
    · rw [if_neg hd] at hc
      rcases List.mem_cons.mp hc with h | h
      · exact Or.inl (h ▸ List.mem_cons_self d rest)
      · rcases ih false c h with h2 | h2
        · exact Or.inl (List.mem_cons_of_mem d h2)
        · exact Or.inr h2

theorem mem_collapseWs (s : List Char) (c : Char) (hc : c ∈ collapseWs s) :
    c ∈ s ∨ c = ' ' :=
  mem_collapseAux s false c hc

theorem dropWhile_idem (p : Char → Bool) (l : List Char) :
    List.dropWhile p (List.dropWhile p l) = List.dropWhile p l := by
  induction l with
  | nil => rfl
  | cons c rest ih =>
    rw [List.dropWhile_cons]
    split
    · exact ih
    · rename_i hc
      rw [List.dropWhile_cons, if_neg hc]

theorem dropWhile_eq_self_of_prefix (p : Char → Bool) {l₁ l₂ : List Char}
    (hpre : l₁ <+: l₂) (h : List.dropWhile p l₂ = l₂) :
    List.dropWhile p l₁ = l₁ := by
  cases l₁ with
  | nil => rfl
  | cons a t₁ =>
    obtain ⟨t, ht⟩ := hpre
    rw [List.dropWhile_cons]
    split
    · rename_i ha
      exfalso
      rw [← ht, List.cons_append, List.dropWhile_cons, if_pos ha] at h
      have hlen := congrArg List.length h
      have hle : (List.dropWhile p (t₁ ++ t)).length ≤ (t₁ ++ t).length :=
        (List.dropWhile_suffix _).length_le
      simp only [List.length_cons] at hlen
      omega
    · rfl

theorem jsTrim_is_prefix_core (s : List Char) :
    jsTrim s <+: List.dropWhile isJsWs s := by
  unfold jsTrim
  have hsuf : List.dropWhile isJsWs (List.dropWhile isJsWs s).reverse <:+
      (List.dropWhile isJsWs s).reverse := List.dropWhile_suffix _
  have := @List.reverse_suffix _
    ((List.dropWhile isJsWs (List.dropWhile isJsWs s).reverse).reverse)
    (List.dropWhile isJsWs s)
  rw [List.reverse_reverse] at this
  exact this.mp hsuf

theorem jsTrim_idem (s : List Char) : jsTrim (jsTrim s) = jsTrim s := by
  have hA : List.dropWhile isJsWs (jsTrim s) = jsTrim s :=
    dropWhile_eq_self_of_prefix isJsWs (jsTrim_is_prefix_core s)
      (dropWhile_idem isJsWs s)
  have hB : List.dropWhile isJsWs (jsTrim s).reverse = (jsTrim s).reverse := by
    unfold jsTrim
    rw [List.reverse_reverse]
    exact dropWhile_idem isJsWs _
  show ((List.dropWhile isJsWs (jsTrim s)).reverse.dropWhile isJsWs).reverse = jsTrim s
  rw [hA, hB, List.reverse_reverse]

theorem wcB_collapseAux (s : List Char) : ∀ prev, wcB prev (collapseAux prev s) = true := by
  induction s with
  | nil => intro prev; rfl
  | cons c rest ih =>
    intro prev
    unfold collapseAux
    by_cases hc : isJsWs c
    · rw [if_pos hc]
      by_cases hp : prev
      · subst hp
        rw [if_pos rfl]
        exact ih true
      · have hp2 : prev = false := by revert hp; cases prev <;> simp
        subst hp2
        simp only [Bool.false_eq_true, if_false]
        unfold wcB
        rw [if_pos (by simp [isJsWs] : isJsWs ' ' = true)]
        simp [ih true]
    · rw [if_neg hc]
      unfold wcB
      rw [if_neg hc]
      exact ih false

theorem wcB_true_elim (s : List Char) (h : wcB true s = true) :
    s.dropWhile isJsWs = s ∧ wcB false s = true := by
  cases s with
  | nil => exact ⟨rfl, rfl⟩
  | cons c rest =>
    unfold wcB at h
    by_cases hc : isJsWs c
    · rw [if_pos hc] at h
      simp at h
    · rw [if_neg hc] at h
      refine ⟨?_, ?_⟩
      · rw [List.dropWhile_cons, if_neg hc]
      · unfold wcB
        rw [if_neg hc]
        exact h

theorem wcB_dropWhile (s : List Char) (h : wcB false s = true) :
    wcB false (s.dropWhile isJsWs) = true := by
  cases s with
  | nil => exact h
  | cons c rest =>
    by_cases hc : isJsWs c
    · unfold wcB at h
      rw [if_pos hc] at h
      have hrest : wcB true rest = true := by
        revert h
        cases wcB true rest <;> simp
      obtain ⟨hdrop, hfalse⟩ := wcB_true_elim rest hrest
      rw [List.dropWhile_cons, if_pos hc, hdrop]
      exact hfalse
    · rw [List.dropWhile_cons, if_neg hc]
      exact h

theorem wcB_prefix (l₁ : List Char) :
    ∀ (l₂ : List Char) (prev : Bool), l₁ <+: l₂ → wcB prev l₂ = true → wcB prev l₁ = true := by
  induction l₁ with
  | nil => intro l₂ prev _ _; rfl
  | cons a t₁ ih =>
    intro l₂ prev hpre h
    obtain ⟨t, ht⟩ := hpre
    rw [← ht] at h
    rw [List.cons_append] at h
    unfold wcB at h ⊢
    by_cases ha : isJsWs a
    · rw [if_pos ha] at h ⊢
      have h1 : decide (a = ' ') = true ∧ (!prev) = true ∧ wcB true (t₁ ++ t) = true := by
        revert h
        cases decide (a = ' ') <;> cases prev <;> cases wcB true (t₁ ++ t) <;> simp
      obtain ⟨ha1, ha2, ha3⟩ := h1
      have := ih (t₁ ++ t) true ⟨t, rfl⟩ ha3
      rw [ha1, ha2, this]
      rfl
    · rw [if_neg ha] at h ⊢
      exact ih (t₁ ++ t) false ⟨t, rfl⟩ h

theorem collapseAux_of_wcB (s : List Char) :
    ∀ prev, wcB prev s = true → collapseAux prev s = s := by
  induction s with
  | nil => intro prev _; rfl
  | cons c rest ih =>
    intro prev h
    unfold wcB at h
    unfold collapseAux
    by_cases hc : isJsWs c
    · rw [if_pos hc] at h ⊢
      have h1 : decide (c = ' ') = true ∧ (!prev) = true ∧ wcB true rest = true := by
        revert h
        cases decide (c = ' ') <;> cases prev <;> cases wcB true rest <;> simp
      obtain ⟨hc1, hc2, hc3⟩ := h1
      have hceq : c = ' ' := of_decide_eq_true hc1
      have hprev : prev = false := by revert hc2; cases prev <;> simp
      subst hprev
      simp only [Bool.false_eq_true, if_false]
      rw [hceq, ih true hc3]
    · rw [if_neg hc] at h ⊢
      rw [ih false h]

theorem collapseWs_fixes_trimmed (s : List Char) :
    collapseWs (jsTrim (collapseWs s)) = jsTrim (collapseWs s) := by
  have h0 : wcB false (collapseWs s) = true := wcB_collapseAux s false
  have h1 : wcB false ((collapseWs s).dropWhile isJsWs) = true := wcB_dropWhile _ h0
  have h2 : jsTrim (collapseWs s) <+: (collapseWs s).dropWhile isJsWs :=
    jsTrim_is_prefix_core _
  have h3 : wcB false (jsTrim (collapseWs s)) = true := wcB_prefix _ _ false h2 h1
  exact collapseAux_of_wcB _ false h3

theorem mem_rtGo (s : List Char) : ∀ (b : Bool) (c : Char), c ∈ rtGo b s → c ∈ s := by
  induction s with
  | nil => intro b c hc; cases b <;> cases hc
  | cons d rest ih =>
    intro b c hc
    cases b with
    | true =>
      unfold rtGo at hc
      by_cases hd : d = '>'
      · rw [if_pos hd] at hc
        exact List.mem_cons_of_mem d (ih false c hc)
      · rw [if_neg hd] at hc
        exact List.mem_cons_of_mem d (ih true c hc)
    | false =>
      unfold rtGo at hc
      by_cases hd : (d = '<' && rest.contains '>') = true
      · rw [if_pos hd] at hc
        exact List.mem_cons_of_mem d (ih true c hc)
      · rw [if_neg hd] at hc
        rcases List.mem_cons.mp hc with h | h
        · exact h ▸ List.mem_cons_self d rest
        · exact List.mem_cons_of_mem d (ih false c h)

theorem tagFreeB_rtGo (s : List Char) : ∀ b, tagFreeB (rtGo b s) = true := by
  induction s with
  | nil => intro b; cases b <;> rfl
  | cons d rest ih =>
    intro b
    cases b with
    | true =>
      unfold rtGo
      by_cases hd : d = '>'
      · rw [if_pos hd]; exact ih false
      · rw [if_neg hd]; exact ih true
    | false =>
      unfold rtGo
      by_cases hd : (d = '<' && rest.contains '>') = true
      · rw [if_pos hd]; exact ih true
      · rw [if_neg hd]
        unfold tagFreeB
        rw [Bool.and_eq_true]
        refine ⟨?_, ih false⟩
        by_cases hlt : d = '<'
        · rw [if_pos hlt]
          have hgt : rest.contains '>' = false := by
            revert hd
            rw [hlt]
            cases rest.contains '>' <;> simp
          have hmem : '>' ∉ rtGo false rest := by
            intro hm
            have h1 : '>' ∈ rest := mem_rtGo rest false '>' hm
            have h2 : rest.contains '>' = true := by simpa using h1
            rw [hgt] at h2
            cases h2
          simpa using hmem
        · rw [if_neg hlt]

theorem rtGo_of_tagFree (s : List Char) (h : tagFreeB s = true) : rtGo false s = s := by
  induction s with
  | nil => rfl
  | cons d rest ih =>
    unfold tagFreeB at h
    rw [Bool.and_eq_true] at h
    obtain ⟨h1, h2⟩ := h
    unfold rtGo
    by_cases hlt : d = '<'
    · rw [if_pos hlt] at h1
      have hgt : rest.contains '>' = false := by
        revert h1
        cases rest.contains '>' <;> simp
      rw [if_neg (by rw [hgt]; simp : ¬ ((d = '<' && rest.contains '>') = true))]
      rw [ih h2]
    · rw [if_neg (by simp [hlt] : ¬ ((d = '<' && rest.contains '>') = true))]
      rw [ih h2]

theorem tagFreeB_sublist {t s : List Char} (hsub : t.Sublist s)
    (h : tagFreeB s = true) : tagFreeB t = true := by
  induction hsub with
  | slnil => rfl
  | cons a hs ih =>
    unfold tagFreeB at h
    rw [Bool.and_eq_true] at h
    exact ih h.2
  | cons₂ a hs ih =>
    rename_i l1 l2
    unfold tagFreeB at h ⊢
    rw [Bool.and_eq_true] at h ⊢
    obtain ⟨h1, h2⟩ := h
    refine ⟨?_, ih h2⟩
    by_cases ha : a = '<'
    · rw [if_pos ha] at h1 ⊢
      have hs2 : '>' ∉ l2 := by simpa using h1
      have ht2 : '>' ∉ l1 := fun hm => hs2 (List.Sublist.mem hm hs)
      simpa using ht2
    · rw [if_neg ha]

theorem tagFreeB_collapseAux (s : List Char) (h : tagFreeB s = true) :
    ∀ prev, tagFreeB (collapseAux prev s) = true := by
  induction s with
  | nil => intro prev; rfl
  | cons c rest ih =>
    intro prev
    unfold tagFreeB at h
    rw [Bool.and_eq_true] at h
    obtain ⟨h1, h2⟩ := h
    unfold collapseAux
    by_cases hc : isJsWs c = true
    · rw [if_pos hc]
      cases prev with
      | true => exact ih h2 true
      | false =>
        simp only [Bool.false_eq_true, if_false]
        unfold tagFreeB
        rw [Bool.and_eq_true]
        refine ⟨?_, ih h2 true⟩
        rw [if_neg (by decide : ¬ (' ' = '<'))]
    · rw [if_neg hc]
      unfold tagFreeB
      rw [Bool.and_eq_true]
      refine ⟨?_, ih h2 false⟩
      by_cases hlt : c = '<'
      · rw [if_pos hlt] at h1 ⊢
        have hmemr : '>' ∉ rest := by
          intro hm
          have : rest.contains '>' = true := by simpa using hm
          revert h1
          rw [this]
          simp
        have hmem : '>' ∉ collapseAux false rest := by
          intro hm
          rcases mem_collapseAux rest false '>' hm with hin | hsp
          · exact hmemr hin
          · exact absurd hsp (by decide)
        simpa using hmem
      · rw [if_neg hlt]

theorem jsTrim_sublist (s : List Char) : (jsTrim s).Sublist s :=
  ((jsTrim_is_prefix_core s).sublist).trans ((List.dropWhile_suffix isJsWs).sublist)

theorem clientClean_no_amp (s : List Char) (h : '&' ∉ s) :
    clientCleanHtmlContent s = jsTrim (removeTags s) := by
  unfold clientCleanHtmlContent
  split
  · rename_i hs
    have : s = [] := List.isEmpty_iff.mp hs
    subst this
    rfl
  · rw [decodeEntities_of_no_amp (removeTags s) (fun hm => h (mem_rtGo s false '&' hm))]

theorem serverClean_no_amp (s : List Char) (h : '&' ∉ s) :
    serverCleanHtmlContent s = jsTrim (collapseWs (removeTags s)) := by
  unfold serverCleanHtmlContent
  split
  · rename_i hs
    have : s = [] := List.isEmpty_iff.mp hs
    subst this
    rfl
  · rw [decodeEntities_of_no_amp (removeTags s) (fun hm => h (mem_rtGo s false '&' hm))]

theorem jsSlice0_length_le {α : Type} (l : List α) (n : Int) (hn : 0 ≤ n) :
    ((jsSlice0 l n).length : Int) ≤ n := by
  unfold jsSlice0
  rw [if_neg (by omega : ¬ n < 0)]
  rw [List.length_take]
  have h1 : min (min n.toNat l.length) l.length ≤ n.toNat := by omega
  have h2 : (n.toNat : Int) = n := Int.toNat_of_nonneg hn
  omega

theorem jsSlice0_zero {α : Type} (l : List α) : jsSlice0 l 0 = [] := by
  unfold jsSlice0
  rw [if_neg (by omega : ¬ (0:Int) < 0)]
  simp

theorem jsSlice0_sublist {α : Type} (l : List α) (n : Int) :
    (jsSlice0 l n).Sublist l := by
  unfold jsSlice0
  split
  · exact List.take_sublist _ _
  · exact List.take_sublist _ _

theorem rsc_not_dup (unique : List (List Char)) (item : List Char)
    (h : rscIsDup unique (normContent item) = false) :
    ∀ e ∈ unique,
      calculateSimilarity (normContent e) (normContent item) ≤ (0.8 : ℚ) ∧
      normContent e ≠ normContent item := by
  intro e he
  unfold rscIsDup at h
  rw [List.any_eq_false] at h
  have h2 := h e he
  simp only [Bool.or_eq_true, decide_eq_true_eq, not_or] at h2
  obtain ⟨hne, hsim⟩ := h2
  refine ⟨?_, hne⟩
  have h3 : ¬ ((4:ℚ)/5 < calculateSimilarity (normContent e) (normContent item)) := by
    intro hlt
    exact hsim ((simGt08_iff _ _).mpr hlt)
  have h4 : (0.8 : ℚ) = 4/5 := by norm_num
  rw [h4]
  exact not_lt.mp h3

theorem removeSimilarContent_pairwise (content : List (List Char)) :
    List.Pairwise (fun x y =>
      calculateSimilarity (normContent x) (normContent y) ≤ (0.8 : ℚ) ∧
      normContent x ≠ normContent y) (removeSimilarContent content) := by
  unfold removeSimilarContent
  suffices key : ∀ (l acc : List (List Char)),
      List.Pairwise (fun x y =>
        calculateSimilarity (normContent x) (normContent y) ≤ (0.8 : ℚ) ∧
        normContent x ≠ normContent y) acc →
      List.Pairwise (fun x y =>
        calculateSimilarity (normContent x) (normContent y) ≤ (0.8 : ℚ) ∧
        normContent x ≠ normContent y)
        (l.foldl (fun unique item =>
          if rscIsDup unique (normContent item) then unique else unique ++ [item]) acc) by
    exact key content [] List.Pairwise.nil
  intro l
  induction l with
  | nil => intro acc hacc; exact hacc
  | cons item rest ih =>
    intro acc hacc
    rw [List.foldl_cons]
    apply ih
    by_cases hd : rscIsDup acc (normContent item) = true
    · rw [if_pos hd]; exact hacc
    · have hd2 : rscIsDup acc (normContent item) = false := by
        revert hd; cases rscIsDup acc (normContent item) <;> simp
      rw [if_neg (by rw [hd2]; simp)]
      rw [List.pairwise_append]
      refine ⟨hacc, List.pairwise_singleton _ _, ?_⟩
      intro a ha b hb
      rw [List.mem_singleton] at hb
      rw [hb]
      exact rsc_not_dup acc item hd2 a ha

theorem map_fst_pair_score (l : List (List Char)) :
    (l.map ((fun p : List Char × Int => p.1) ∘
      (fun item => (item, getContentRelevanceScore item)))) = l := by
  induction l with
  | nil => rfl
  | cons x xs ih =>
    rw [List.map_cons, ih]
    rfl

theorem prioritizeContent_perm (l : List (List Char)) :
    List.Perm (prioritizeContent l) l := by
  unfold prioritizeContent
  have h1 := stableSort_perm (fun a b : List Char × Int => decide (b.2 ≤ a.2))
    (l.map (fun item => (item, getContentRelevanceScore item)))
  have h2 := h1.map (fun p : List Char × Int => p.1)
  rw [List.map_map, map_fst_pair_score] at h2
  exact h2

theorem dfGo_replicate_mem (k : String) (seen : List String) (L : List String)
    (hk : k ∈ seen) : ∀ m, dfGo seen (List.replicate m k ++ L) = dfGo seen L := by
  intro m
  induction m with
  | zero => rfl
  | succ m ih =>
    rw [List.replicate_succ, List.cons_append]
    show (if k ∈ seen then dfGo seen (List.replicate m k ++ L)
      else k :: dfGo (k :: seen) (List.replicate m k ++ L)) = dfGo seen L
    rw [if_pos hk]
    exact ih

theorem analyzeCFK_key (content : List String) :
    ∀ (cats : List WeightedCategory) (seen : List String),
      (∀ cat ∈ cats, 9 ≤ cat.wNum) →
      ((cats.map (fun c => c.key)).Nodup) →
      (∀ cat ∈ cats, cat.key ∉ seen) →
      dfGo seen (((cats.map (fun cat => (cat, clientMatchingKeywords content cat))).map
          (fun p => if p.2.isEmpty then []
            else List.replicate (weightedCount p.2.length p.1.wNum) p.1.key)).flatten)
        = (cats.filter
            (fun cat => !(clientMatchingKeywords content cat).isEmpty)).map
            (fun cat => cat.key) := by
  intro cats
  induction cats with
  | nil => intro seen _ _ _; rfl
  | cons cat rest ih =>
    intro seen hw hnodup hseen
    rw [List.map_cons, List.map_cons, List.flatten_cons, List.filter_cons]
    have hw9 : 9 ≤ cat.wNum := hw cat (List.mem_cons_self cat rest)
    have hnodup2 : ((rest.map (fun c => c.key)).Nodup) := by
      rw [List.map_cons] at hnodup
      exact hnodup.of_cons
    have hkey_not : cat.key ∉ rest.map (fun c => c.key) := by
      rw [List.map_cons] at hnodup
      exact (List.nodup_cons.mp hnodup).1
    by_cases he : (clientMatchingKeywords content cat).isEmpty = true
    · rw [if_pos he]
      rw [List.nil_append]
      rw [show (!(clientMatchingKeywords content cat).isEmpty) = false by rw [he]; rfl]
      simp only [Bool.false_eq_true, if_false]
      exact ih seen (fun c hc => hw c (List.mem_cons_of_mem cat hc)) hnodup2
        (fun c hc => hseen c (List.mem_cons_of_mem cat hc))
    · have he2 : (clientMatchingKeywords content cat).isEmpty = false := by
        revert he; cases (clientMatchingKeywords content cat).isEmpty <;> simp
      rw [show (if (clientMatchingKeywords content cat).isEmpty = true then ([] : List String)
          else List.replicate
            (weightedCount (clientMatchingKeywords content cat).length cat.wNum) cat.key)
        = List.replicate
            (weightedCount (clientMatchingKeywords content cat).length cat.wNum) cat.key
        by rw [he2]; simp]
      have hlen : 0 < (clientMatchingKeywords content cat).length := by
        cases hmk : clientMatchingKeywords content cat with
        | nil => rw [hmk] at he2; cases he2
        | cons x xs => simp [hmk]
      have hwc : 0 < weightedCount (clientMatchingKeywords content cat).length cat.wNum := by
        unfold weightedCount
        have hmul : 9 ≤ (clientMatchingKeywords content cat).length * cat.wNum := by
          calc 9 = 1 * 9 := by omega
            _ ≤ (clientMatchingKeywords content cat).length * cat.wNum :=
              Nat.mul_le_mul hlen hw9
        omega
      obtain ⟨m, hm⟩ : ∃ m,
          weightedCount (clientMatchingKeywords content cat).length cat.wNum = m + 1 :=
        ⟨weightedCount (clientMatchingKeywords content cat).length cat.wNum - 1, by omega⟩
      rw [hm, List.replicate_succ, List.cons_append]
      show (if cat.key ∈ seen then _ else cat.key :: dfGo (cat.key :: seen) _) = _
      rw [if_neg (hseen cat (List.mem_cons_self cat rest))]
      rw [dfGo_replicate_mem cat.key (cat.key :: seen) _ (List.mem_cons_self _ _) m]
      rw [show (!(clientMatchingKeywords content cat).isEmpty) = true by rw [he2]; rfl]
      simp only [if_true]
      rw [List.map_cons]
      congr 1
      apply ih (cat.key :: seen) (fun c hc => hw c (List.mem_cons_of_mem cat hc)) hnodup2
      intro c hc
      rw [List.mem_cons]
      rintro (h | h)
      · exact hkey_not (h ▸ List.mem_map_of_mem (fun x => x.key) hc)
      · exact hseen c (List.mem_cons_of_mem cat hc) h

/-! ### Claim theorems -/

/-- Claim C1, counterexample: at `maxItems = -1` with two surviving items,
`prioritized.slice(0, -1)` keeps the first item (JavaScript `slice` counts a
negative end from the end of the array), so the summary has length 1, which
is neither `≤ -1` nor empty although `-1 ≤ 0`. -/
theorem summarizeContent_bound_counterexample :
    ¬ ((((summarizeContent ["abc".toList, "xyz".toList] (-1)).summary.length : Int) ≤ -1) ∧
       ((-1 : Int) ≤ 0 → (summarizeContent ["abc".toList, "xyz".toList] (-1)).summary = [])) := by
  decide

/-- Claim C1 (amended): for every input list and every integer `N ≥ 0`, the
summary returned by `summarizeContent(items, N)` has length at most `N`; in
particular for `N = 0` the summary is empty.  (For negative `N` JavaScript
`slice(0, N)` counts from the end of the array instead, see the
counterexample.) -/
theorem summarizeContent_bound (content : List (List Char)) (N : Int) (hN : 0 ≤ N) :
    (((summarizeContent content N).summary.length : Int) ≤ N) ∧
    (N = 0 → (summarizeContent content N).summary = []) := by
  constructor
  · exact jsSlice0_length_le _ N hN
  · intro h
    subst h
    exact jsSlice0_zero _

/-- Witness for C1 at `items = ["abc"]`, `N = 3`. -/
theorem summarizeContent_bound_witness :
    (0 : Int) ≤ 3 ∧
    ((((summarizeContent ["abc".toList] 3).summary.length : Int) ≤ 3) ∧
      ((3 : Int) = 0 → (summarizeContent ["abc".toList] 3).summary = [])) :=
  ⟨by decide, summarizeContent_bound ["abc".toList] 3 (by decide)⟩

/-- Claim C2 (confirmed): for every input list and item bound, any two
distinct elements of the summary have similarity at most 0.8 on their
lowercased, trimmed forms, and no two are case-insensitively equal after
trimming (the dedup stage rejects a candidate matching any accepted item
exactly or with similarity above 0.8; ranking permutes and truncation takes a
sublist). -/
theorem summarizeContent_dedup (content : List (List Char)) (maxItems : Int) :
    List.Pairwise (fun x y =>
      calculateSimilarity (normContent x) (normContent y) ≤ (0.8 : ℚ) ∧
      normContent x ≠ normContent y)
      (summarizeContent content maxItems).summary := by
  have h1 := removeSimilarContent_pairwise (content.filter isMeaningful)
  have hsymm : ∀ {x y : List Char},
      (calculateSimilarity (normContent x) (normContent y) ≤ (0.8 : ℚ) ∧
        normContent x ≠ normContent y) →
      (calculateSimilarity (normContent y) (normContent x) ≤ (0.8 : ℚ) ∧
        normContent y ≠ normContent x) := by
    intro x y h
    refine ⟨?_, h.2.symm⟩
    rw [calculateSimilarity_symm]
    exact h.1
  have h2 : List.Pairwise (fun x y =>
      calculateSimilarity (normContent x) (normContent y) ≤ (0.8 : ℚ) ∧
      normContent x ≠ normContent y)
      (prioritizeContent (removeSimilarContent (content.filter isMeaningful))) :=
    h1.perm (prioritizeContent_perm _).symm (fun h => hsymm h)
  exact List.Pairwise.sublist (jsSlice0_sublist _ maxItems) h2

/-- Claim C3 (confirmed): `calculateSimilarity` equals
`1 - editDistance/max(len a, len b)` (with value 1 at two empty strings), the
Gong variant without early returns computes the same function, the value lies
in `[0,1]`, the function is symmetric and reflexive, two empty strings give 1,
and a nonempty string against the empty string gives 0. -/
theorem calculateSimilarity_spec (a b : List Char) :
    calculateSimilarity a b
        = 1 - (levenshtein a b : ℚ) / ((max a.length b.length : ℕ) : ℚ) ∧
    calculateSimilarityGong a b = calculateSimilarity a b ∧
    0 ≤ calculateSimilarity a b ∧
    calculateSimilarity a b ≤ 1 ∧
    calculateSimilarity a b = calculateSimilarity b a ∧
    calculateSimilarity a a = 1 ∧
    calculateSimilarity ([] : List Char) [] = 1 ∧
    (a ≠ [] → calculateSimilarity a [] = 0) := by
  refine ⟨calculateSimilarity_eq_formula a b, calculateSimilarityGong_eq a b,
    calculateSimilarity_nonneg a b, calculateSimilarity_le_one a b,
    calculateSimilarity_symm a b, ?_, ?_, ?_⟩
  · unfold calculateSimilarity
    rw [if_pos rfl]
  · unfold calculateSimilarity
    rw [if_pos rfl]
  · intro ha
    unfold calculateSimilarity
    rw [if_neg ha]
    simp

/-- Witness for C3 at `a = "ab"`, `b = ""`. -/
theorem calculateSimilarity_spec_witness :
    ("ab".toList ≠ ([] : List Char)) ∧ calculateSimilarity "ab".toList [] = 0 :=
  ⟨by decide, (calculateSimilarity_spec "ab".toList []).2.2.2.2.2.2.2 (by decide)⟩

/-- Claim C4, counterexample: on `"&lt;b&gt;"` one pass of either
`cleanHtmlContent` variant decodes the entities into the tag `"<b>"`, which a
second pass strips to the empty string, so neither variant is idempotent. -/
theorem cleanHtmlContent_idem_counterexample :
    ¬ (clientCleanHtmlContent (clientCleanHtmlContent ("&lt;b&gt;".toList))
        = clientCleanHtmlContent ("&lt;b&gt;".toList)) ∧
    ¬ (serverCleanHtmlContent (serverCleanHtmlContent ("&lt;b&gt;".toList))
        = serverCleanHtmlContent ("&lt;b&gt;".toList)) := by
  decide

/-- Claim C4 (amended): both `cleanHtmlContent` variants are idempotent on
every string that contains no `&` — in particular on arbitrary tagged markup
without entities: after one pass no kept `<` has a `>` after it, so a second
tag-removal pass is the identity, and trimming/collapsing are idempotent.
Only entity decoding can break idempotence, by manufacturing a tag that the
first pass's tag removal has already run past (see the counterexample). -/
theorem cleanHtmlContent_idem_of_no_amp (s : List Char) (h2 : '&' ∉ s) :
    clientCleanHtmlContent (clientCleanHtmlContent s) = clientCleanHtmlContent s ∧
    serverCleanHtmlContent (serverCleanHtmlContent s) = serverCleanHtmlContent s := by
  have hamp_rt : '&' ∉ removeTags s := fun hm => h2 (mem_rtGo s false '&' hm)
  constructor
  · rw [clientClean_no_amp s h2]
    have htf : tagFreeB (jsTrim (removeTags s)) = true :=
      tagFreeB_sublist (jsTrim_sublist (removeTags s)) (tagFreeB_rtGo s false)
    have hamp_t : '&' ∉ jsTrim (removeTags s) :=
      fun hm => hamp_rt (jsTrim_subset _ _ hm)
    rw [clientClean_no_amp _ hamp_t]
    rw [show removeTags (jsTrim (removeTags s)) = jsTrim (removeTags s) from
      rtGo_of_tagFree _ htf]
    exact jsTrim_idem _
  · rw [serverClean_no_amp s h2]
    have h1c : tagFreeB (collapseWs (removeTags s)) = true :=
      tagFreeB_collapseAux _ (tagFreeB_rtGo s false) false
    have htf : tagFreeB (jsTrim (collapseWs (removeTags s))) = true :=
      tagFreeB_sublist (jsTrim_sublist _) h1c
    have hamp_t : '&' ∉ jsTrim (collapseWs (removeTags s)) := by
      intro hm
      rcases mem_collapseWs _ '&' (jsTrim_subset _ _ hm) with hin | hsp
      · exact hamp_rt hin
      · exact absurd hsp (by decide)
    rw [serverClean_no_amp _ hamp_t]
    rw [show removeTags (jsTrim (collapseWs (removeTags s)))
        = jsTrim (collapseWs (removeTags s)) from rtGo_of_tagFree _ htf]
    rw [collapseWs_fixes_trimmed]
    exact jsTrim_idem _

/-- Witness for C4 at `s = "x <b>y</b> z"`, a string with real tags. -/
theorem cleanHtmlContent_idem_of_no_amp_witness :
    ('&' ∉ "x <b>y</b> z".toList) ∧
    (clientCleanHtmlContent (clientCleanHtmlContent ("x <b>y</b> z".toList))
        = clientCleanHtmlContent ("x <b>y</b> z".toList) ∧
     serverCleanHtmlContent (serverCleanHtmlContent ("x <b>y</b> z".toList))
        = serverCleanHtmlContent ("x <b>y</b> z".toList)) :=
  ⟨by decide, cleanHtmlContent_idem_of_no_amp ("x <b>y</b> z".toList) (by decide)⟩

/-- Claim C5, counterexample: the client variant of `cleanHtmlContent` leaves
the internal whitespace run of `"a  b"` untouched, so its output differs from
the spec contract (which collapses it to `"a b"`). -/
theorem cleanHtmlContent_collapse_counterexample :
    clientCleanHtmlContent ("a  b".toList) = "a  b".toList ∧
    clientCleanHtmlContent ("a  b".toList) ≠ specNormalize ("a  b".toList) := by
  decide

/-- Claim C5 (amended): the server variant of `cleanHtmlContent` implements
exactly the spec contract of §4.1 (tags removed, entities decoded, whitespace
runs collapsed, trimmed, total, empty input to empty output); the client
variant implements the same contract without the whitespace-collapsing step. -/
theorem cleanHtmlContent_refinement (s : List Char) :
    serverCleanHtmlContent s = specNormalize s ∧
    clientCleanHtmlContent s = specNormalizeNoCollapse s := by
  cases s with
  | nil => exact ⟨rfl, rfl⟩
  | cons c cs => exact ⟨rfl, rfl⟩

/-- Claim C6, counterexample: on `["meeting sprint scrum backlog"]` the
category "workshops" has weighted score `ceil(1 × 0.9) = 1` and "agile" has
`ceil(3 × 1.2) = 4`, yet `analyzeContentForKeywords` returns
`["workshops", "agile"]` — the lower-scored category first, not the
descending-score order `["agile", "workshops"]` the claim requires — because
the `Set` dedup keeps first-insertion (declaration) order, cancelling the
replication. -/
theorem analyzeContentForKeywords_order_counterexample :
    (analyzeContentForKeywords ["meeting sprint scrum backlog"]).categories
      = ["workshops", "agile"] ∧
    (analyzeContentForKeywords ["meeting sprint scrum backlog"]).categories
      ≠ ["agile", "workshops"] ∧
    clientWeightedScore ["meeting sprint scrum backlog"] "workshops" = 1 ∧
    clientWeightedScore ["meeting sprint scrum backlog"] "agile" = 4 ∧
    ¬ (clientWeightedScore ["meeting sprint scrum backlog"] "agile"
        ≤ clientWeightedScore ["meeting sprint scrum backlog"] "workshops") := by
  decide

/-- Claim C6 (amended): in weighted-replication mode the output category list
is the matched categories in taxonomy declaration order — the per-score
replication is erased by the first-occurrence `Set` dedup, so the scores
`ceil(matchCount × weight)` have no effect on the ranking. -/
theorem analyzeContentForKeywords_decl_order (content : List String) :
    (analyzeContentForKeywords content).categories =
      (clientTemplateCategories.filter
        (fun cat => !(clientMatchingKeywords content cat).isEmpty)).map
        (fun cat => cat.key) := by
  show dedupFirst (((clientTemplateCategories.map
      (fun cat => (cat, clientMatchingKeywords content cat))).map
      (fun p => if p.2.isEmpty then []
        else List.replicate (weightedCount p.2.length p.1.wNum) p.1.key)).flatten) = _
  exact analyzeCFK_key content clientTemplateCategories [] (by decide) (by decide)
    (fun _ _ => List.not_mem_nil _)

/-- Claim C7, counterexample: the client's `analyzeContentForTemplates` joins
the raw category keys into its context string, so the scenario input yields
"Content appears to focus on: agile" rather than the display-name form the
claim states. -/
theorem generateContext_counterexample :
    (analyzeContentForTemplates
        ["We ran a sprint retrospective with the scrum team"]).context
      = "Content appears to focus on: agile" ∧
    (analyzeContentForTemplates
        ["We ran a sprint retrospective with the scrum team"]).context
      ≠ "Content appears to focus on: Agile/Scrum methodology" := by
  decide

/-- Claim C7 (amended): the server analyzer builds the context from the top-3
category keys through the display-name table — the scenario input yields
category `agile` and context "Content appears to focus on: Agile/Scrum
methodology" — and the context is the literal "General collaborative work"
whenever no mapped key remains; the client's `analyzeContentForTemplates`
instead joins the raw keys (see the counterexample). -/
theorem generateContext_display_names :
    (analyzeContent ["We ran a sprint retrospective with the scrum team"]).context
      = "Content appears to focus on: Agile/Scrum methodology" ∧
    (analyzeContent ["We ran a sprint retrospective with the scrum team"]).categories
      = ["agile"] ∧
    (∀ cats : List String,
      (cats.take 3).filterMap (fun cat => contextMap.lookup cat) = [] →
      generateContextDescription cats = "General collaborative work") := by
  refine ⟨by decide, by decide, ?_⟩
  intro cats h
  unfold generateContextDescription
  rw [h]
  rfl

/-- Witness for C7 at the empty category list. -/
theorem generateContext_display_names_witness :
    ((([] : List String).take 3).filterMap (fun cat => contextMap.lookup cat) = []) ∧
    generateContextDescription [] = "General collaborative work" :=
  ⟨rfl, generateContext_display_names.2.2 [] rfl⟩

/-- Claim C8 (confirmed): for every test `exactTest` of the compiled
word-boundary regex, whenever some candidate title passes it the result of
the call matcher consists exactly of those candidates (as a permutation, the
sort only reorders), each with matchType "exact" and score 100 — fuzzy
matching is not consulted; and the concrete scenario
`matchCalls([{title:"Acme Corp - Q1 Review",...}], "Acme")`, whose
metacharacter-free query compiles to the literal word-boundary test
`wordRegexTest "Acme"`, returns exactly one exact match with score 100. -/
theorem searchGongCalls_exact_priority :
    (∀ (exactTest : String → Bool) (calls : List GongCall) (query : String),
      (∃ c ∈ calls, exactTest c.title = true) →
        (∀ m ∈ searchMatches exactTest calls query,
          m.matchType = "exact" ∧ m.score = 100) ∧
        List.Perm ((searchMatches exactTest calls query).map (fun m => m.call))
          (calls.filter (fun c => exactTest c.title))) ∧
    searchMatches (fun title => wordRegexTest "Acme" title) [acmeCall] "Acme"
      = [{ call := acmeCall, matchType := "exact", score := 100 }] := by
  constructor
  · intro exactTest calls query hex
    obtain ⟨c, hc, htest⟩ := hex
    have hmemf : c ∈ calls.filter (fun c => exactTest c.title) :=
      List.mem_filter.mpr ⟨hc, htest⟩
    have hne : ((calls.filter (fun c => exactTest c.title)).map
        (fun c => { call := c, matchType := "exact", score := 100 : GongMatch })).isEmpty
          = false := by
      cases hfe : calls.filter (fun c => exactTest c.title) with
      | nil => rw [hfe] at hmemf; cases hmemf
      | cons x xs => rfl
    have hsm : searchMatches exactTest calls query = stableSort (fun a b =>
        if a.score = b.score then decide (b.call.started ≤ a.call.started)
        else decide (b.score ≤ a.score))
        ((calls.filter (fun c => exactTest c.title)).map
          (fun c => { call := c, matchType := "exact", score := 100 : GongMatch })) := by
      simp only [searchMatches]
      rw [hne]
      simp
    constructor
    · intro m hm
      rw [hsm] at hm
      have hm2 := (stableSort_perm _ _).mem_iff.mp hm
      obtain ⟨c', _, hmk⟩ := List.mem_map.mp hm2
      rw [← hmk]
      exact ⟨rfl, rfl⟩
    · rw [hsm]
      have hp := (stableSort_perm (fun a b : GongMatch =>
        if a.score = b.score then decide (b.call.started ≤ a.call.started)
        else decide (b.score ≤ a.score))
        ((calls.filter (fun c => exactTest c.title)).map
          (fun c => { call := c, matchType := "exact", score := 100 : GongMatch }))).map
        (fun m : GongMatch => m.call)
      rw [List.map_map] at hp
      have hid : ((calls.filter (fun c => exactTest c.title)).map
          ((fun m : GongMatch => m.call) ∘
            (fun c => { call := c, matchType := "exact", score := 100 : GongMatch })))
          = calls.filter (fun c => exactTest c.title) := by
        generalize calls.filter (fun c => exactTest c.title) = L
        induction L with
        | nil => rfl
        | cons x xs ih =>
          rw [List.map_cons, ih]
          rfl
      rw [hid] at hp
      exact hp
  · decide

/-- Witness for C8 at the scenario's predicate, call list and query. -/
theorem searchGongCalls_exact_priority_witness :
    (∃ c ∈ [acmeCall], (fun title => wordRegexTest "Acme" title) c.title = true) ∧
    ((∀ m ∈ searchMatches (fun title => wordRegexTest "Acme" title) [acmeCall] "Acme",
        m.matchType = "exact" ∧ m.score = 100) ∧
      List.Perm ((searchMatches (fun title => wordRegexTest "Acme" title)
          [acmeCall] "Acme").map (fun m => m.call))
        ([acmeCall].filter (fun c => (fun title => wordRegexTest "Acme" title) c.title))) :=
  ⟨⟨acmeCall, by decide, by decide⟩,
    searchGongCalls_exact_priority.1 (fun title => wordRegexTest "Acme" title)
      [acmeCall] "Acme" ⟨acmeCall, by decide, by decide⟩⟩

/-- Claim C9 (confirmed): for every endpoint other than "/calls", `gongGet`
performs no HTTP request, leaves the cache untouched and returns `undefined`
(`none`); in particular the direct-callId path of `selectGongCall`, which
awaits `gongGet("/calls/" + callId)`, receives `undefined` rather than call
details or a thrown error. -/
theorem gongGet_non_calls_undefined :
    (∀ (endpoint params : String) (oracle : String → Option String → GongPage)
        (cache : List (String × GongResult)),
      endpoint ≠ "/calls" →
        gongGet endpoint params oracle cache = (none, cache, [])) ∧
    (∀ (callId params : String) (oracle : String → Option String → GongPage)
        (cache : List (String × GongResult)),
      gongGet ("/calls/" ++ callId) params oracle cache = (none, cache, [])) := by
  have h1 : ∀ (endpoint params : String) (oracle : String → Option String → GongPage)
      (cache : List (String × GongResult)),
      endpoint ≠ "/calls" → gongGet endpoint params oracle cache = (none, cache, []) := by
    intro e p o cache he
    unfold gongGet
    rw [if_neg he]
  refine ⟨h1, ?_⟩
  intro callId p o cache
  apply h1
  intro heq
  have hlen := congrArg String.length heq
  rw [String.length_append] at hlen
  have h7 : ("/calls/" : String).length = 7 := by decide
  have h6 : ("/calls" : String).length = 6 := by decide
  omega

/-- Witness for C9 at endpoint "/users". -/
theorem gongGet_non_calls_undefined_witness :
    gongGet "/users" "q" (fun _ _ => { pageCalls := [], nextCursor := none }) []
      = (none, [], []) :=
  gongGet_non_calls_undefined.1 "/users" "q"
    (fun _ _ => { pageCalls := [], nextCursor := none }) [] (by decide)

/-- Claim C10 (confirmed): the value returned by `gongGet` and the set of
HTTP fetches it performs are independent of the contents of the in-memory
cache (the cache is only written, never read), and a second identical
invocation — run on the cache state the first one produced — performs the
same full paginated fetch trace and returns the same result. -/
theorem gongGet_cache_write_only :
    ∀ (endpoint params : String) (oracle : String → Option String → GongPage)
      (cache₁ cache₂ : List (String × GongResult)),
      (gongGet endpoint params oracle cache₁).1
        = (gongGet endpoint params oracle cache₂).1 ∧
      (gongGet endpoint params oracle cache₁).2.2
        = (gongGet endpoint params oracle cache₂).2.2 ∧
      (gongGet endpoint params oracle
          (gongGet endpoint params oracle cache₁).2.1).1
        = (gongGet endpoint params oracle cache₁).1 ∧
      (gongGet endpoint params oracle
          (gongGet endpoint params oracle cache₁).2.1).2.2
        = (gongGet endpoint params oracle cache₁).2.2 := by
  intro e p o c1 c2
  unfold gongGet
  by_cases h : e = "/calls" <;> simp [h]

end MiroMcp
